import Mathlib

/- Verification of the cluster-metric engine of circulo/metrics/cover.py:
   boundary-edge extraction (external_edges) and the per-cluster metrics
   (expansion, cut_ratio, conductance, separability, normalized_cut, fomd,
   out-degree-fraction family) plus the compute_metrics orchestration.

   Modelling conventions:
   - Python floats are modelled by ℚ; a NaN result is modelled by
     (none : Option ℚ), a finite value q by (some q).
   - Fallible Python code (ZeroDivisionError, NameError) is modelled by
     Except PyErr.
   - An igraph edge is a record of its index in the graph edge sequence and
     its (source, target) endpoints; an edge attribute holding weights is
     modelled by a function from the edge index to ℚ. -/

namespace Circulo

/- Kinds of Python exception the translated code can raise. -/
inductive PyErr where
  | zeroDivision
  | nameError
deriving DecidableEq, Repr

/- An igraph edge: position in G.es, source vertex id, target vertex id. -/
structure Edge where
  idx : Nat
  src : Nat
  dst : Nat
deriving DecidableEq, Repr

/- The graph collaborator: vertex count and edge sequence. -/
structure Graph where
  n : Nat
  edges : List Edge
deriving DecidableEq, Repr

/- A vertex cover: the graph together with the ordered cluster list
   (each cluster a list of vertex ids), as held by igraph VertexCover. -/
structure Cover where
  graph : Graph
  clusters : List (List Nat)
deriving DecidableEq, Repr

/- Whether vertex v is listed in cluster i of the cover. -/
def clusterHas (C : Cover) (i v : Nat) : Bool :=
  (C.clusters.getD i []).contains v

/- The vertex set of cluster i as rebuilt by external_edges from the
   membership arrays (community_sets[i]): the vertices of the graph that
   belong to cluster i, in ascending order. -/
def clusterVerts (C : Cover) (i : Nat) : List Nat :=
  (List.range C.graph.n).filter (fun v => clusterHas C i v)

/- membership[v] of igraph VertexCover: the cluster indices containing
   vertex v, ascending. -/
def membershipOf (C : Cover) (v : Nat) : List Nat :=
  (List.range C.clusters.length).filter (fun i => clusterHas C i v)

/- cover.crossing() of the external igraph collaborator: edge e is crossing
   iff the membership sets of its endpoints are disjoint, i.e. no cluster
   contains both endpoints. -/
def crossingB (C : Cover) (e : Edge) : Bool :=
  (List.range C.clusters.length).all
    (fun i => !(clusterHas C i e.src && clusterHas C i e.dst))

/- sorted(community_sets.keys()): the indices of clusters that contain at
   least one vertex of the graph, in ascending order. -/
def communityKeys (C : Cover) : List Nat :=
  (List.range C.clusters.length).filter (fun i => !(clusterVerts C i).isEmpty)

/- The per-cluster test in the inner loop of external_edges: src in the
   membership set and dst not, or dst in and src not. -/
def boundaryTest (s : List Nat) (e : Edge) : Bool :=
  (s.contains e.src && !(s.contains e.dst)) || (s.contains e.dst && !(s.contains e.src))

/- One pass of the inner loop of external_edges for a single crossing edge:
   for each position i of membership_sets, append the edge to
   array_of_sets[i] when boundaryTest holds. -/
def distribute (e : Edge) : List (List Nat) → List (List Edge) → List (List Edge)
  | _, [] => []
  | [], sets => sets
  | s :: ms, l :: sets =>
      (if boundaryTest s e then l ++ [e] else l) :: distribute e ms sets

/- membership_sets (line 241): the vertex sets of the nonempty clusters, in
   sorted cluster-index order. -/
def msetsOf (C : Cover) : List (List Nat) :=
  (communityKeys C).map (clusterVerts C)

/- The inner-loop test seen from position i of membership_sets: false beyond
   the end of the list. -/
def condAt (ms : List (List Nat)) (i : Nat) (e : Edge) : Bool :=
  match ms.get? i with
  | some s => boundaryTest s e
  | none => false

/- external_edges(cover) (cover.py lines 227-253): array_of_sets starts as
   one empty list per cluster; membership_sets lists the vertex sets of the
   nonempty clusters in sorted index order; every crossing edge is appended
   to the set at each position of membership_sets whose set contains exactly
   one of its endpoints. -/
def external_edges (C : Cover) : List (List Edge) :=
  C.graph.edges.foldl
    (fun sets e => if crossingB C e then distribute e (msetsOf C) sets else sets)
    (C.clusters.map (fun _ => []))

/- __weighted_sum(edges, w_attr): the edge count when unweighted, otherwise
   the sum of the weight attribute over the edges. -/
def weightedSum (es : List Edge) (w : Option (Nat → ℚ)) : ℚ :=
  match w with
  | none => (es.length : ℚ)
  | some f => (es.map (fun e => f e.idx)).sum

/- cover.subgraph(i).es(): the edges of the induced subgraph of cluster i,
   i.e. the graph edges with both endpoints in cluster i. -/
def internalEdges (C : Cover) (i : Nat) : List Edge :=
  C.graph.edges.filter (fun e => clusterHas C i e.src && clusterHas C i e.dst)

/- float(mode) where mode = "nan" if allow_nan else 0. -/
def policy (allow_nan : Bool) : Option ℚ :=
  if allow_nan then none else some 0

/- cover.size(i): the length of the cluster list i. -/
def clusterSize (C : Cover) (i : Nat) : Nat :=
  (C.clusters.getD i []).length

/- The weight spec carries a nonnegative weight per edge (trivially true
   when unweighted). -/
def WNonneg (w : Option (Nat → ℚ)) : Prop :=
  ∀ f, w = some f → ∀ i, 0 ≤ f i

/- cut_ratio(cover, allow_nan) (lines 74-91): per cluster, the unweighted
   boundary-edge count over size_i*(n - size_i), or float(mode) when that
   denominator is not positive. -/
def cut_ratio (C : Cover) (allow_nan : Bool) : List (Option ℚ) :=
  (List.range C.clusters.length).map (fun i =>
    let size_i : ℚ := (clusterSize C i : ℚ)
    let denom : ℚ := size_i * ((C.graph.n : ℚ) - size_i)
    if 0 < denom then some ((((external_edges C).getD i []).length : ℚ) / denom)
    else policy allow_nan)

/- conductance(cover, weights, allow_nan) (lines 93-111): per cluster,
   ext/(2*int + ext) when that denominator is positive, else float(mode). -/
def conductance (C : Cover) (w : Option (Nat → ℚ)) (allow_nan : Bool) :
    List (Option ℚ) :=
  (List.range C.clusters.length).map (fun i =>
    let intc := weightedSum (internalEdges C i) w
    let extc := weightedSum ((external_edges C).getD i []) w
    let denom := 2 * intc + extc
    if 0 < denom then some (extc / denom) else policy allow_nan)

/- separability(cover, weights, allow_nan) (lines 113-128): per cluster,
   int/ext when ext is positive, else float(mode). -/
def separability (C : Cover) (w : Option (Nat → ℚ)) (allow_nan : Bool) :
    List (Option ℚ) :=
  (List.range C.clusters.length).map (fun i =>
    let intc := weightedSum (internalEdges C i) w
    let extc := weightedSum ((external_edges C).getD i []) w
    if 0 < extc then some (intc / extc) else policy allow_nan)

/- The loop body sequence of expansion (lines 64-72): the division
   1.0*weighted_sum/size_i raises ZeroDivisionError when size_i is zero. -/
def expansionAux (C : Cover) (w : Option (Nat → ℚ)) :
    List Nat → Except PyErr (List ℚ)
  | [] => .ok []
  | i :: is =>
      let size_i := clusterSize C i
      if size_i = 0 then .error .zeroDivision
      else
        (expansionAux C w is).map
          (fun rest => weightedSum ((external_edges C).getD i []) w / (size_i : ℚ) :: rest)

/- expansion(cover, weights) (lines 58-72): weighted boundary-edge sum over
   cluster size, with no zero-size guard. -/
def expansion (C : Cover) (w : Option (Nat → ℚ)) : Except PyErr (List ℚ) :=
  expansionAux C w (List.range C.clusters.length)

/- normalized_cut(cover, weights, allow_nan) (lines 131-148): starts from
   conductance(weights) (allow_nan defaulting to False there), then adds
   ext/(2*(tot - int) + ext) when that denominator is positive, else
   float(allow_nan), i.e. 1.0 when allow_nan is True and 0.0 otherwise. -/
def normalized_cut (C : Cover) (w : Option (Nat → ℚ)) (allow_nan : Bool) :
    List (Option ℚ) :=
  let base := conductance C w false
  (List.range C.clusters.length).map (fun i =>
    let intc := weightedSum (internalEdges C i) w
    let extc := weightedSum ((external_edges C).getD i []) w
    let tot := weightedSum C.graph.edges w
    let denom := 2 * (tot - intc) + extc
    (base.getD i (some 0)).map
      (fun c => c + (if 0 < denom then extc / denom else (if allow_nan then 1 else 0))))

/- The 4-cycle scenario of the spec: vertices {0,1,2,3}, edges
   (0,1),(1,2),(2,3),(3,0), cover with clusters {0,1} and {2,3}. -/
def fourG : Graph := ⟨4, [⟨0, 0, 1⟩, ⟨1, 1, 2⟩, ⟨2, 2, 3⟩, ⟨3, 3, 0⟩]⟩

def fourCover : Cover := ⟨fourG, [[0, 1], [2, 3]]⟩

/- A single edge (0,1) with one cluster holding both endpoints. -/
def k2Cover : Cover := ⟨⟨2, [⟨0, 0, 1⟩]⟩, [[0, 1]]⟩

/- A single edge (0,1) with clusters {0}, {} (empty), {1}: exercises the
   empty-cluster compaction of external_edges. -/
def gapCover : Cover := ⟨⟨2, [⟨0, 0, 1⟩]⟩, [[0], [], [1]]⟩

/- A one-vertex graph covered by a single empty cluster. -/
def emptyClusterCover : Cover := ⟨⟨1, []⟩, [[]]⟩

/- The user-facing weight specification: nothing, the name of an existing
   edge attribute, or an explicit per-edge value array. -/
inductive WeightSpec where
  | noWeights
  | named (name : String)
  | explicitArr (vals : List ℚ)

/- uuid.uuid5(uuid.NAMESPACE_DNS, "{metric_name}.circulo.lab41"): a
   deterministic collision-resistant attribute name derived from the metric
   name; modelled by the seed string itself. -/
def syntheticName (metricName : String) : String :=
  metricName ++ ".circulo.lab41"

/- __get_weight_attr(G, metric_name, weights) (lines 13-33) acting on the
   graph edge-attribute name set: a named spec is returned as-is with
   remove=False; an explicit array attaches the synthetic attribute
   (G.es[attr_name] = weights) and returns remove=True; no weights returns
   (None, False). Result: ((attr_name, remove), attribute set after). -/
def getWeightAttr (attrs : List String) (metricName : String) (ws : WeightSpec) :
    (Option String × Bool) × List String :=
  match ws with
  | .named s => ((some s, false), attrs)
  | .explicitArr _ =>
      ((some (syntheticName metricName), true),
        if attrs.contains (syntheticName metricName) then attrs
        else attrs ++ [syntheticName metricName])
  | .noWeights => ((none, false), attrs)

/- __remove_weight_attr(G, attr_name, remove) (lines 35-37): the body is
   "if remove: del G.es[uid]", and uid is an unbound name, so the call
   raises NameError whenever remove is true and deletes nothing. -/
def removeWeightAttr (attrs : List String) (remove : Bool) :
    Except PyErr (List String) :=
  if remove then .error .nameError else .ok attrs

/- The per-edge weight function each spec resolves to: the values of the
   named attribute (supplied by the environment env), or the explicit array
   indexed by edge id. -/
def resolvedW (ws : WeightSpec) (env : String → Nat → ℚ) : Option (Nat → ℚ) :=
  match ws with
  | .noWeights => none
  | .named s => some (env s)
  | .explicitArr vals => some (fun i => vals.getD i 0)

/- conductance(cover, weights, allow_nan) incl. its weight lifecycle (lines
   97 and 110): resolve the weight attribute, compute the per-cluster
   values, then call __remove_weight_attr; an exception there propagates
   and the attribute set stays as it was after resolution. Result:
   (outcome, final edge-attribute name set). -/
def conductanceRun (C : Cover) (attrs : List String) (env : String → Nat → ℚ)
    (ws : WeightSpec) (allow_nan : Bool) :
    Except PyErr (List (Option ℚ)) × List String :=
  let r := getWeightAttr attrs "conductance" ws
  let res := conductance C (resolvedW ws env) allow_nan
  match removeWeightAttr r.2 r.1.2 with
  | .ok attrs2 => (.ok res, attrs2)
  | .error e => (.error e, r.2)

/- The weight an edge contributes: 1.0 when unweighted, otherwise its value
   of the weight attribute. -/
def wt (w : Option (Nat → ℚ)) (e : Edge) : ℚ :=
  match w with
  | none => 1
  | some f => f e.idx

/- graph.strength(weights=w_attr) of the igraph collaborator at vertex v,
   restricted to an edge list: the summed weight of incident edges, a loop
   edge counting twice. -/
def strengthIn (es : List Edge) (w : Option (Nat → ℚ)) (v : Nat) : ℚ :=
  (es.map (fun e =>
    (if e.src = v then wt w e else 0) + (if e.dst = v then wt w e else 0))).sum

/- scipy.median: the middle element of the sorted values, or the mean of
   the two middle elements for an even count; NaN (none) on an empty
   list. -/
def median (l : List ℚ) : Option ℚ :=
  if l.length = 0 then none
  else
    let s := l.insertionSort (· ≤ ·)
    if l.length % 2 = 1 then some (s.getD (l.length / 2) 0)
    else some ((s.getD (l.length / 2 - 1) 0 + s.getD (l.length / 2) 0) / 2)

/- The comparison "v > median" of fomd; a comparison against a NaN median
   is false. -/
def medLt (med : Option ℚ) (x : ℚ) : Bool :=
  match med with
  | some m => decide (m < x)
  | none => false

/- The loop of fomd (lines 51-53): each subgraph contributes the count of
   its vertices whose subgraph strength exceeds the global median, divided
   by the subgraph vertex count; the division raises ZeroDivisionError on
   an empty cluster. -/
def fomdAux (C : Cover) (w : Option (Nat → ℚ)) (med : Option ℚ) :
    List Nat → Except PyErr (List ℚ)
  | [] => .ok []
  | i :: is =>
      let verts := clusterVerts C i
      if verts.length = 0 then .error .zeroDivision
      else
        (fomdAux C w med is).map (fun rest =>
          (((verts.filter
              (fun v => medLt med (strengthIn (internalEdges C i) w v))).length : ℚ)
            / (verts.length : ℚ)) :: rest)

/- fomd(cover, weights) (lines 42-56): fraction of each cluster's vertices
   whose internal weighted degree exceeds the median weighted degree of the
   whole graph. -/
def fomd (C : Cover) (w : Option (Nat → ℚ)) : Except PyErr (List ℚ) :=
  fomdAux C w (median ((List.range C.graph.n).map (strengthIn C.graph.edges w)))
    (List.range C.clusters.length)

/- The vertex a boundary edge of cluster i is attributed to (line 217): the
   source when the source lies in cluster i, else the target. -/
def odfNode (C : Cover) (i : Nat) (e : Edge) : Nat :=
  if clusterHas C i e.src then e.src else e.dst

/- out_degree_fraction(cover, weights, allow_nan) (lines 199-224), read as
   the content of the sparse result matrix at (v, i): vertices to which no
   boundary edge of cluster i is attributed keep the implicit zero;
   otherwise the accumulated boundary weight over the vertex's full-graph
   strength, or float(mode) when that strength is zero. -/
def out_degree_fraction (C : Cover) (w : Option (Nat → ℚ)) (allow_nan : Bool)
    (v i : Nat) : Option ℚ :=
  let mine := ((external_edges C).getD i []).filter (fun e => odfNode C i e = v)
  if mine.isEmpty then some 0
  else
    let deg := strengthIn C.graph.edges w v
    if deg ≠ 0 then some ((mine.map (wt w)).sum / deg) else policy allow_nan

/- NaN-propagating maximum, for the scipy sparse column maximum. -/
def optMax (a b : Option ℚ) : Option ℚ :=
  match a, b with
  | some x, some y => some (max x y)
  | _, _ => none

/- NaN-propagating sum step, for the scipy sparse column sum. -/
def optAddQ (a b : Option ℚ) : Option ℚ :=
  match a, b with
  | some x, some y => some (x + y)
  | _, _ => none

/- maximum_out_degree_fraction (lines 150-163): odf.max(0) per column; the
   scipy sparse maximum ranges over the column's entries including its
   implicit zeros. -/
def maximum_out_degree_fraction (C : Cover) (w : Option (Nat → ℚ))
    (allow_nan : Bool) : List (Option ℚ) :=
  (List.range C.clusters.length).map (fun i =>
    ((List.range C.graph.n).map
      (fun v => out_degree_fraction C w allow_nan v i)).foldl optMax (some 0))

/- average_out_degree_fraction (lines 165-178): the column sum divided by
   the subgraph vertex count; the numpy float division by a zero count
   yields a non-finite value (none), not an exception. -/
def average_out_degree_fraction (C : Cover) (w : Option (Nat → ℚ))
    (allow_nan : Bool) : List (Option ℚ) :=
  (List.range C.clusters.length).map (fun i =>
    let s := ((List.range C.graph.n).map
      (fun v => out_degree_fraction C w allow_nan v i)).foldl optAddQ (some 0)
    let cnt := (clusterVerts C i).length
    match s with
    | none => none
    | some q => if cnt = 0 then none else some (q / (cnt : ℚ)))

/- The comparison item > 1/2 of flake; false on a NaN entry. -/
def gtHalf (o : Option ℚ) : Bool :=
  match o with
  | some q => decide (1 / 2 < q)
  | none => false

/- The loop of flake_out_degree_fraction (lines 190-196): count the rows of
   column i above one half, divided by the subgraph vertex count; the
   Python integer division raises ZeroDivisionError on an empty cluster. -/
def flakeAux (C : Cover) (w : Option (Nat → ℚ)) (allow_nan : Bool) :
    List Nat → Except PyErr (List ℚ)
  | [] => .ok []
  | i :: is =>
      let cnt := (clusterVerts C i).length
      if cnt = 0 then .error .zeroDivision
      else
        (flakeAux C w allow_nan is).map (fun rest =>
          ((((List.range C.graph.n).filter
              (fun v => gtHalf (out_degree_fraction C w allow_nan v i))).length : ℚ)
            / (cnt : ℚ)) :: rest)

/- flake_out_degree_fraction (lines 180-197). -/
def flake_out_degree_fraction (C : Cover) (w : Option (Nat → ℚ))
    (allow_nan : Bool) : Except PyErr (List ℚ) :=
  flakeAux C w allow_nan (List.range C.clusters.length)

/- One entry of cover.metrics: the per-cluster results sequence and its
   aggregation; agg is None for subgraph-metric keys not re-aggregated. The
   aggregation statistics helper is the external collaborator
   circulo.utils.general.aggregate, kept abstract of type
   List (Option ℚ) → A. -/
structure MEntry (A : Type) where
  results : List (Option ℚ)
  agg : Option A

/- A fresh metric entry as built at lines 284-294: results plus their
   aggregation. -/
def mkEntry {A : Type} (aggr : List (Option ℚ) → A) (rs : List (Option ℚ)) :
    MEntry A :=
  ⟨rs, some (aggr rs)⟩

/- The nine cluster-metric entries assembled at lines 267-294, in source
   evaluation order; a failure in fomd, expansion or flake propagates
   before cover.metrics is assigned. -/
def baseReport {A : Type} (C : Cover) (w : Option (Nat → ℚ))
    (aggr : List (Option ℚ) → A) :
    Except PyErr (List (String × MEntry A)) := do
  let fo ← fomd C w
  let ex ← expansion C w
  let cr := cut_ratio C false
  let co := conductance C w false
  let nc := normalized_cut C w false
  let mx := maximum_out_degree_fraction C w false
  let av := average_out_degree_fraction C w false
  let fl ← flake_out_degree_fraction C w false
  let sp := separability C w false
  .ok [("Fraction over a Median Degree", mkEntry aggr (fo.map some)),
       ("Expansion", mkEntry aggr (ex.map some)),
       ("Cut Ratio", mkEntry aggr cr),
       ("Conductance", mkEntry aggr co),
       ("Normalized Cut", mkEntry aggr nc),
       ("Maximum Out Degree Fraction", mkEntry aggr mx),
       ("Average Out Degree Fraction", mkEntry aggr av),
       ("Flake Out Degree Fraction", mkEntry aggr fl),
       ("Separability", mkEntry aggr sp)]

/- Lines 302-305: merge one subgraph metric value into the report, creating
   a fresh entry (empty results, agg None) for an unseen key, then
   appending the value to that key's results. -/
def addSubVal {A : Type} (rep : List (String × MEntry A))
    (kv : String × Option ℚ) : List (String × MEntry A) :=
  if (rep.map Prod.fst).contains kv.1 then
    rep.map (fun p =>
      if p.1 = kv.1 then (p.1, ⟨p.2.results ++ [kv.2], p.2.agg⟩) else p)
  else rep ++ [(kv.1, ⟨[kv.2], none⟩)]

/- Lines 307-308: recompute the aggregation of one key over its accumulated
   results. -/
def setAgg {A : Type} (aggr : List (Option ℚ) → A)
    (rep : List (String × MEntry A)) (key : String) :
    List (String × MEntry A) :=
  rep.map (fun p =>
    if p.1 = key then (p.1, ⟨p.2.results, some (aggr p.2.results)⟩) else p)

/- The subgraph-merge phase (lines 296-308): fold every cluster's
   subgraph-metric key/value pairs (sgm, the external per-subgraph metrics
   collaborator) into the report, then re-aggregate exactly the keys of the
   last cluster's subgraph metrics (the loop variable sg holds the last
   subgraph at line 307). -/
def mergeSubgraphs {A : Type} (aggr : List (Option ℚ) → A)
    (sgm : Nat → List (String × Option ℚ)) (k : Nat)
    (rep : List (String × MEntry A)) : List (String × MEntry A) :=
  let merged := (List.range k).foldl (fun r i => (sgm i).foldl addSubVal r) rep
  ((sgm (k - 1)).map Prod.fst).foldl (setAgg aggr) merged

/- The cover-held mutable metrics cache (VertexCover.metrics, initialized
   to None at line 335 and assigned at line 284). -/
structure CoverState (A : Type) where
  metrics : Option (List (String × MEntry A))

/- compute_metrics(cover, weights, ...) (lines 264-308) as a transformer of
   the cover's metrics cache: on a metric failure the cache is untouched
   (the failure precedes the assignment at line 284); on an empty cover the
   nine-metric report is stored and then line 307 raises NameError (the
   loop variable sg is unbound); otherwise the merged report is stored.
   Weights are taken already resolved to a per-edge function (a None or
   named spec; an explicit array fails in the first metric call, see
   conductanceRun and removeWeightAttr). -/
def compute_metrics {A : Type} (C : Cover) (w : Option (Nat → ℚ))
    (aggr : List (Option ℚ) → A) (sgm : Nat → List (String × Option ℚ))
    (s : CoverState A) : CoverState A × Except PyErr Unit :=
  match baseReport C w aggr with
  | .error e => (s, .error e)
  | .ok rep =>
      if C.clusters.length = 0 then (⟨some rep⟩, .error .nameError)
      else (⟨some (mergeSubgraphs aggr sgm C.clusters.length rep)⟩, .ok ())

/- Helper lemmas about list access and the external_edges fold. -/

theorem getD_map_range {α : Type} (f : Nat → α) (d : α) {k i : Nat}
    (hi : i < k) : ((List.range k).map f).getD i d = f i := by
  rw [List.getD_eq_get?, List.get?_map, List.get?_range hi]
  rfl

theorem distribute_length (e : Edge) :
    ∀ (ms : List (List Nat)) (sets : List (List Edge)),
      (distribute e ms sets).length = sets.length := by
  intro ms sets
  induction sets generalizing ms with
  | nil => cases ms <;> rfl
  | cons l ls ih =>
      cases ms with
      | nil => rfl
      | cons s ms => simpa [distribute] using ih ms

theorem distribute_get? (e : Edge) :
    ∀ (ms : List (List Nat)) (sets : List (List Edge)) (i : Nat),
      (distribute e ms sets).get? i =
        (sets.get? i).map (fun l => if condAt ms i e then l ++ [e] else l) := by
  intro ms sets
  induction sets generalizing ms with
  | nil => intro i; cases ms <;> simp [distribute]
  | cons l ls ih =>
      intro i
      cases ms with
      | nil =>
          cases i <;> simp [distribute, condAt]
      | cons s ms =>
          cases i with
          | zero => simp [distribute, condAt]
          | succ j => simpa [distribute, condAt] using ih ms j

theorem extFold_get? (C : Cover) :
    ∀ (es : List Edge) (init : List (List Edge)) (i : Nat),
      ((es.foldl
          (fun sets e => if crossingB C e then distribute e (msetsOf C) sets else sets)
          init).get? i) =
        (init.get? i).map
          (fun l => l ++ es.filter (fun e => crossingB C e && condAt (msetsOf C) i e)) := by
  intro es
  induction es with
  | nil =>
      intro init i
      simp
  | cons e es ih =>
      intro init i
      rw [List.foldl_cons, ih]
      by_cases hc : crossingB C e
      · rw [if_pos hc, distribute_get?]
        cases hg : init.get? i with
        | none => simp
        | some l =>
            simp only [Option.map_some']
            rw [List.filter_cons]
            by_cases hca : condAt (msetsOf C) i e
            · simp [hc, hca]
            · simp [hc, hca]
      · rw [if_neg hc]
        rw [List.filter_cons]
        simp [hc]

theorem external_edges_length (C : Cover) :
    (external_edges C).length = C.clusters.length := by
  unfold external_edges
  have h : ∀ (es : List Edge) (init : List (List Edge)),
      (es.foldl
        (fun sets e => if crossingB C e then distribute e (msetsOf C) sets else sets)
        init).length = init.length := by
    intro es
    induction es with
    | nil => intro init; rfl
    | cons e es ih =>
        intro init
        rw [List.foldl_cons, ih]
        by_cases hc : crossingB C e <;> simp [hc, distribute_length]
  rw [h]
  simp

theorem external_edges_get? (C : Cover) {i : Nat} (hi : i < C.clusters.length) :
    (external_edges C).get? i =
      some (C.graph.edges.filter
        (fun e => crossingB C e && condAt (msetsOf C) i e)) := by
  unfold external_edges
  rw [extFold_get?]
  rw [List.get?_map, List.get?_eq_get hi]
  simp

theorem external_edges_getD (C : Cover) {i : Nat} (hi : i < C.clusters.length) :
    (external_edges C).getD i [] =
      C.graph.edges.filter (fun e => crossingB C e && condAt (msetsOf C) i e) := by
  rw [List.getD_eq_get?, external_edges_get? C hi]
  rfl

theorem communityKeys_eq_range (C : Cover)
    (hne : ∀ i < C.clusters.length, clusterVerts C i ≠ []) :
    communityKeys C = List.range C.clusters.length := by
  unfold communityKeys
  apply List.filter_eq_self.mpr
  intro i hi
  have hlt : i < C.clusters.length := List.mem_range.mp hi
  simp [hne i hlt]

theorem msetsOf_get?_eq (C : Cover) {i : Nat} (hi : i < C.clusters.length)
    (hne : ∀ j < C.clusters.length, clusterVerts C j ≠ []) :
    (msetsOf C).get? i = some (clusterVerts C i) := by
  unfold msetsOf
  rw [communityKeys_eq_range C hne, List.get?_map, List.get?_range hi]
  rfl

theorem contains_clusterVerts (C : Cover) {i v : Nat} (hv : v < C.graph.n) :
    (clusterVerts C i).contains v = clusterHas C i v := by
  unfold clusterVerts
  cases h : clusterHas C i v with
  | true =>
      have : v ∈ (List.range C.graph.n).filter (fun u => clusterHas C i u) :=
        List.mem_filter.mpr ⟨List.mem_range.mpr hv, h⟩
      simpa [List.contains] using this
  | false =>
      have : v ∉ (List.range C.graph.n).filter (fun u => clusterHas C i u) := by
        intro hmem
        have := (List.mem_filter.mp hmem).2
        rw [h] at this
        exact Bool.false_ne_true this
      simpa [List.contains] using this

theorem boundaryTest_clusterVerts (C : Cover) {i : Nat} {e : Edge}
    (hs : e.src < C.graph.n) (hd : e.dst < C.graph.n) :
    boundaryTest (clusterVerts C i) e =
      (clusterHas C i e.src != clusterHas C i e.dst) := by
  unfold boundaryTest
  rw [contains_clusterVerts C hs, contains_clusterVerts C hd]
  cases clusterHas C i e.src <;> cases clusterHas C i e.dst <;> rfl

/- Counting helpers for the double-counting argument of the boundary-edge
   totals. -/

theorem sum_map_ite_one {β : Type} (q : β → Bool) :
    ∀ es : List β,
      (es.map (fun e => if q e then 1 else 0)).sum = es.countP q := by
  intro es
  induction es with
  | nil => rfl
  | cons e es ih =>
      rw [List.map_cons, List.sum_cons, List.countP_cons, ih]
      omega

theorem sum_countP_exchange {α β : Type} (p : α → β → Bool) :
    ∀ (L : List α) (es : List β),
      (L.map (fun i => es.countP (p i))).sum =
        (es.map (fun e => L.countP (fun i => p i e))).sum := by
  intro L
  induction L with
  | nil =>
      intro es
      induction es with
      | nil => rfl
      | cons e es ih => simpa using ih
  | cons i L ih =>
      intro es
      rw [List.map_cons, List.sum_cons, ih]
      have hsplit :
          (es.map (fun e => (i :: L).countP (fun j => p j e))) =
            es.map (fun e =>
              L.countP (fun j => p j e) + (if p i e then 1 else 0)) := by
        apply List.map_congr_left
        intro e _
        rw [List.countP_cons]
      rw [hsplit, List.sum_map_add, sum_map_ite_one]
      omega

theorem countP_range_condAt (e : Edge) :
    ∀ (ms : List (List Nat)) (k : Nat), ms.length ≤ k →
      (List.range k).countP (fun i => condAt ms i e) =
        ms.countP (fun s => boundaryTest s e) := by
  intro ms
  induction ms with
  | nil =>
      intro k _
      apply List.countP_eq_zero.mpr
      intro i _
      simp [condAt]
  | cons s ms ih =>
      intro k hk
      cases k with
      | zero => simp at hk
      | succ k =>
          rw [List.range_succ_eq_map, List.countP_cons]
          have h0 : condAt (s :: ms) 0 e = boundaryTest s e := rfl
          have hmap :
              (List.map Nat.succ (List.range k)).countP
                  (fun i => condAt (s :: ms) i e) =
                (List.range k).countP (fun i => condAt ms i e) := by
            rw [List.countP_map]
            apply List.countP_congr
            intro i _
            simp [condAt, Function.comp]
          rw [hmap, ih k (Nat.le_of_succ_le_succ hk), h0, List.countP_cons]

theorem countP_range_single {a k : Nat} :
    (List.range k).countP (fun c => decide (c = a)) =
      if a < k then 1 else 0 := by
  induction k with
  | zero => simp
  | succ k ih =>
      rw [List.range_succ, List.countP_append, ih, List.countP_singleton]
      by_cases h2 : k = a
      · subst h2
        simp [Nat.lt_irrefl, Nat.lt_succ_self]
      · by_cases h1 : a < k
        · have h3 : a < k + 1 := by omega
          simp [h1, h2, h3]
        · have h3 : ¬(a < k + 1) := by omega
          simp [h1, h2, h3]

theorem countP_or_disjoint {α : Type} {p q : α → Bool} :
    ∀ l : List α, (∀ x ∈ l, ¬(p x = true ∧ q x = true)) →
      l.countP (fun x => p x || q x) = l.countP p + l.countP q := by
  intro l
  induction l with
  | nil => intro; rfl
  | cons a l ih =>
      intro h
      have ha := h a (List.mem_cons_self a l)
      have hl : ∀ x ∈ l, ¬(p x = true ∧ q x = true) := fun x hx =>
        h x (List.mem_cons_of_mem a hx)
      rw [List.countP_cons, List.countP_cons, List.countP_cons, ih hl]
      cases hp : p a <;> cases hq : q a <;> simp_all <;> omega

theorem unique_cluster {p : Nat → Bool} {k : Nat}
    (h : (List.range k).countP p = 1) :
    ∃ a, a < k ∧ p a = true ∧ ∀ c, c < k → p c = true → c = a := by
  rw [List.countP_eq_length_filter] at h
  obtain ⟨a, ha⟩ := List.length_eq_one.mp h
  have hmem : a ∈ (List.range k).filter p := by
    rw [ha]
    exact List.mem_singleton_self a
  obtain ⟨har, hpa⟩ := List.mem_filter.mp hmem
  refine ⟨a, List.mem_range.mp har, hpa, ?_⟩
  intro c hc hpc
  have hcmem : c ∈ (List.range k).filter p :=
    List.mem_filter.mpr ⟨List.mem_range.mpr hc, hpc⟩
  rw [ha] at hcmem
  exact List.mem_singleton.mp hcmem

theorem sum_map_ite_two {β : Type} (q : β → Bool) :
    ∀ es : List β,
      (es.map (fun e => if q e then 2 else 0)).sum = 2 * es.countP q := by
  intro es
  induction es with
  | nil => rfl
  | cons e es ih =>
      rw [List.map_cons, List.sum_cons, List.countP_cons, ih]
      cases q e <;> simp <;> omega

theorem mem_clusterVerts {C : Cover} {v i : Nat} :
    v ∈ clusterVerts C i ↔ (v < C.graph.n ∧ clusterHas C i v = true) := by
  unfold clusterVerts
  rw [List.mem_filter, List.mem_range]

theorem msetsOf_length_le (C : Cover) :
    (msetsOf C).length ≤ C.clusters.length := by
  unfold msetsOf communityKeys
  rw [List.length_map]
  calc ((List.range C.clusters.length).filter
          (fun i => !(clusterVerts C i).isEmpty)).length
      ≤ (List.range C.clusters.length).length := List.length_filter_le _ _
    _ = C.clusters.length := List.length_range _

theorem crossing_edge_count (C : Cover)
    (hwf : ∀ e ∈ C.graph.edges, e.src < C.graph.n ∧ e.dst < C.graph.n)
    (hpart : ∀ v < C.graph.n,
      (List.range C.clusters.length).countP (fun i => clusterHas C i v) = 1)
    {e : Edge} (he : e ∈ C.graph.edges) (hc : crossingB C e = true) :
    (List.range C.clusters.length).countP
      (fun i => condAt (msetsOf C) i e) = 2 := by
  obtain ⟨hsrc, hdst⟩ := hwf e he
  obtain ⟨a, hak, haP, haU⟩ := unique_cluster (hpart e.src hsrc)
  obtain ⟨b, hbk, hbP, hbU⟩ := unique_cluster (hpart e.dst hdst)
  have hAllCross := List.all_eq_true.mp hc
  have hadst : clusterHas C a e.dst = false := by
    have h1 := hAllCross a (List.mem_range.mpr hak)
    cases h2 : clusterHas C a e.dst with
    | false => rfl
    | true =>
        rw [haP, h2] at h1
        simp at h1
  have hab : a ≠ b := by
    intro hEq
    rw [hEq, hbP] at hadst
    simp at hadst
  rw [countP_range_condAt e (msetsOf C) _ (msetsOf_length_le C)]
  unfold msetsOf communityKeys
  rw [List.countP_map, List.countP_filter]
  simp only [Function.comp]
  have hcong : ∀ c ∈ List.range C.clusters.length,
      ((boundaryTest (clusterVerts C c) e && !(clusterVerts C c).isEmpty) = true
        ↔ (decide (c = a) || decide (c = b)) = true) := by
    intro c hcr
    have hck : c < C.clusters.length := List.mem_range.mp hcr
    have hbt := boundaryTest_clusterVerts C (i := c) hsrc hdst
    by_cases hca : c = a
    · subst hca
      have hne : (clusterVerts C c).isEmpty = false := by
        apply List.isEmpty_eq_false.mpr
        exact List.ne_nil_of_mem (mem_clusterVerts.mpr ⟨hsrc, haP⟩)
      simp [hbt, haP, hadst, hne]
    · by_cases hcb : c = b
      · subst hcb
        have hcsrc : clusterHas C c e.src = false := by
          cases h2 : clusterHas C c e.src with
          | false => rfl
          | true => exact absurd (haU c hck h2) hca
        have hne : (clusterVerts C c).isEmpty = false := by
          apply List.isEmpty_eq_false.mpr
          exact List.ne_nil_of_mem (mem_clusterVerts.mpr ⟨hdst, hbP⟩)
        simp [hbt, hcsrc, hbP, hne, hca]
      · have hcsrc : clusterHas C c e.src = false := by
          cases h2 : clusterHas C c e.src with
          | false => rfl
          | true => exact absurd (haU c hck h2) hca
        have hcdst : clusterHas C c e.dst = false := by
          cases h2 : clusterHas C c e.dst with
          | false => rfl
          | true => exact absurd (hbU c hck h2) hcb
        simp [hbt, hcsrc, hcdst, hca, hcb]
  rw [List.countP_congr hcong]
  have hdisj : ∀ x ∈ List.range C.clusters.length,
      ¬((decide (x = a)) = true ∧ (decide (x = b)) = true) := by
    intro x _ ⟨h1, h2⟩
    exact hab ((of_decide_eq_true h1).symm.trans (of_decide_eq_true h2))
  rw [countP_or_disjoint _ hdisj, countP_range_single, countP_range_single]
  simp [hak, hbk]

/- Helper lemmas about weighted sums and the metric bodies. -/

theorem weightedSum_nil (w : Option (Nat → ℚ)) : weightedSum [] w = 0 := by
  cases w <;> simp [weightedSum]

theorem weightedSum_nonneg {w : Option (Nat → ℚ)} (hw : WNonneg w)
    (es : List Edge) : 0 ≤ weightedSum es w := by
  cases w with
  | none =>
      simp [weightedSum]
  | some f =>
      apply List.sum_nonneg
      intro x hx
      obtain ⟨e, _, hvx⟩ := List.mem_map.mp hx
      rw [← hvx]
      exact hw f rfl e.idx

theorem expansionAux_isOk (C : Cover) (w : Option (Nat → ℚ)) :
    ∀ l : List Nat,
      (expansionAux C w l).isOk = true ↔ ∀ i ∈ l, clusterSize C i ≠ 0 := by
  intro l
  induction l with
  | nil => simp [expansionAux, Except.isOk, Except.toBool]
  | cons i is ih =>
      by_cases hz : clusterSize C i = 0
      · simp [expansionAux, hz, Except.isOk, Except.toBool]
      · have hmap : (expansionAux C w (i :: is)).isOk
            = (expansionAux C w is).isOk := by
          rw [expansionAux]
          rw [if_neg hz]
          cases expansionAux C w is <;> rfl
        rw [hmap]
        constructor
        · intro h j hj
          rcases List.mem_cons.mp hj with hji | hjs
          · rw [hji]; exact hz
          · exact (ih.mp h) j hjs
        · intro h
          exact ih.mpr (fun j hj => h j (List.mem_cons_of_mem i hj))

theorem weightedSum_none (es : List Edge) :
    weightedSum es none = (es.length : ℚ) := rfl

theorem cut_ratio_getD (C : Cover) (an : Bool) (i : Nat)
    (hi : i < C.clusters.length) :
    (cut_ratio C an).getD i (some 0) =
      (if 0 < (clusterSize C i : ℚ) * ((C.graph.n : ℚ) - (clusterSize C i : ℚ))
       then some ((((external_edges C).getD i []).length : ℚ) /
         ((clusterSize C i : ℚ) * ((C.graph.n : ℚ) - (clusterSize C i : ℚ))))
       else policy an) := by
  unfold cut_ratio
  rw [getD_map_range _ _ hi]

theorem conductance_getD (C : Cover) (w : Option (Nat → ℚ)) (an : Bool)
    (i : Nat) (hi : i < C.clusters.length) :
    (conductance C w an).getD i (some 0) =
      (if 0 < 2 * weightedSum (internalEdges C i) w
            + weightedSum ((external_edges C).getD i []) w
       then some (weightedSum ((external_edges C).getD i []) w /
         (2 * weightedSum (internalEdges C i) w
            + weightedSum ((external_edges C).getD i []) w))
       else policy an) := by
  unfold conductance
  rw [getD_map_range _ _ hi]

theorem separability_getD (C : Cover) (w : Option (Nat → ℚ)) (an : Bool)
    (i : Nat) (hi : i < C.clusters.length) :
    (separability C w an).getD i (some 0) =
      (if 0 < weightedSum ((external_edges C).getD i []) w
       then some (weightedSum (internalEdges C i) w /
         weightedSum ((external_edges C).getD i []) w)
       else policy an) := by
  unfold separability
  rw [getD_map_range _ _ hi]

theorem normalized_cut_getD (C : Cover) (w : Option (Nat → ℚ)) (an : Bool)
    (i : Nat) (hi : i < C.clusters.length) :
    (normalized_cut C w an).getD i (some 0) =
      ((conductance C w false).getD i (some 0)).map
        (fun c => c +
          (if 0 < 2 * (weightedSum C.graph.edges w
                - weightedSum (internalEdges C i) w)
              + weightedSum ((external_edges C).getD i []) w
           then weightedSum ((external_edges C).getD i []) w /
             (2 * (weightedSum C.graph.edges w
                - weightedSum (internalEdges C i) w)
              + weightedSum ((external_edges C).getD i []) w)
           else (if an then 1 else 0))) := by
  unfold normalized_cut
  rw [getD_map_range _ _ hi]

/- Claim theorems. -/

/-- Claim C2: on the unweighted 4-cycle over vertices 0..3 with clusters
{0,1} and {2,3}, the boundary set of cluster 0 is exactly the two edges
(1,2) and (3,0), expansion of cluster 0 is 1, cut_ratio of cluster 0 is
1/2, and conductance of cluster 0 is 1/2. -/
theorem c2_four_cycle_concrete :
    (external_edges fourCover).getD 0 [] = [⟨1, 1, 2⟩, ⟨3, 3, 0⟩] ∧
    expansion fourCover none = .ok [1, 1] ∧
    (cut_ratio fourCover false).getD 0 (some 0) = some (1 / 2) ∧
    (conductance fourCover none false).getD 0 (some 0) = some (1 / 2) := by
  have hb0 : (external_edges fourCover).getD 0 [] = [⟨1, 1, 2⟩, ⟨3, 3, 0⟩] := by
    decide
  have hb1 : (external_edges fourCover).getD 1 [] = [⟨1, 1, 2⟩, ⟨3, 3, 0⟩] := by
    decide
  have hint0 : internalEdges fourCover 0 = [⟨0, 0, 1⟩] := by decide
  have hs0 : clusterSize fourCover 0 = 2 := by decide
  have hs1 : clusterSize fourCover 1 = 2 := by decide
  have hg0 : (external_edges fourCover)[0]?.getD [] =
      [(⟨1, 1, 2⟩ : Edge), ⟨3, 3, 0⟩] := by decide
  have hg1 : (external_edges fourCover)[1]?.getD [] =
      [(⟨1, 1, 2⟩ : Edge), ⟨3, 3, 0⟩] := by decide
  have hn : fourCover.graph.n = 4 := rfl
  refine ⟨hb0, ?_, ?_, ?_⟩
  · show expansionAux fourCover none [0, 1] = .ok [1, 1]
    norm_num [expansionAux, hs0, hs1, hg0, hg1, weightedSum_none, Except.map]
  · rw [cut_ratio_getD fourCover false 0 (by decide), hs0, hb0]
    norm_num [hn]
  · rw [conductance_getD fourCover none false 0 (by decide), hint0, hb0]
    norm_num [weightedSum_none]

/-- Claim C1 (counterexample): on the cover with clusters {0}, {} and {1}
over the single edge (0,1), the boundary list at position 1 (the empty
cluster) holds the edge even though neither endpoint is in cluster 1, and
the list at position 2 is empty even though exactly one endpoint is in
cluster 2 — the nonempty clusters are compacted, so position does not
match cluster index. -/
theorem c1_counterexample :
    (external_edges gapCover).getD 1 [] = [⟨0, 0, 1⟩] ∧
    clusterHas gapCover 1 0 = false ∧ clusterHas gapCover 1 1 = false ∧
    (external_edges gapCover).getD 2 [] = [] ∧
    clusterHas gapCover 2 0 = false ∧ clusterHas gapCover 2 1 = true := by
  decide

/-- Claim C1 (amended): the boundary-edge extraction returns one list per
cluster, and when every cluster is nonempty the list at position i belongs
to cluster i and holds an edge iff the edge is crossing (its endpoints
share no cluster) and exactly one of its endpoints is in cluster i's
vertex set. -/
theorem c1_external_edges_characterization (C : Cover)
    (hwf : ∀ e ∈ C.graph.edges, e.src < C.graph.n ∧ e.dst < C.graph.n)
    (hne : ∀ i < C.clusters.length, clusterVerts C i ≠ []) :
    (external_edges C).length = C.clusters.length ∧
    ∀ i < C.clusters.length, ∀ e ∈ C.graph.edges,
      (e ∈ (external_edges C).getD i [] ↔
        (crossingB C e = true ∧
          clusterHas C i e.src ≠ clusterHas C i e.dst)) := by
  refine ⟨external_edges_length C, ?_⟩
  intro i hi e he
  rw [external_edges_getD C hi, List.mem_filter]
  obtain ⟨hs, hd⟩ := hwf e he
  have hca : condAt (msetsOf C) i e = boundaryTest (clusterVerts C i) e := by
    unfold condAt
    rw [msetsOf_get?_eq C hi hne]
  constructor
  · rintro ⟨-, hb⟩
    rw [Bool.and_eq_true] at hb
    refine ⟨hb.1, ?_⟩
    have hbt := hb.2
    rw [hca, boundaryTest_clusterVerts C hs hd] at hbt
    exact bne_iff_ne.mp hbt
  · rintro ⟨hcr, hxor⟩
    refine ⟨he, ?_⟩
    rw [Bool.and_eq_true, hca, boundaryTest_clusterVerts C hs hd]
    exact ⟨hcr, bne_iff_ne.mpr hxor⟩

/-- Witness for the amended C1 on the 4-cycle cover. -/
theorem c1_amended_witness :
    (external_edges fourCover).length = 2 ∧
    (⟨1, 1, 2⟩ ∈ (external_edges fourCover).getD 0 [] ↔
      (crossingB fourCover ⟨1, 1, 2⟩ = true ∧
        clusterHas fourCover 0 1 ≠ clusterHas fourCover 0 2)) := by
  have h := c1_external_edges_characterization fourCover (by decide) (by decide)
  exact ⟨h.1, h.2 0 (by decide) ⟨1, 1, 2⟩ (by decide)⟩

/-- Claim C4 (code bug): a metric run given an explicit weight array
attaches the synthetic attribute and then raises NameError inside
__remove_weight_attr (its body deletes G.es[uid] where uid is unbound),
so the attribute is never removed: the graph's edge-attribute set after
the call differs from the one before. -/
theorem c4_synthetic_attribute_leak :
    conductanceRun fourCover [] (fun _ _ => 1) (.explicitArr [1, 1, 1, 1]) false
      = (.error .nameError, [syntheticName "conductance"]) ∧
    ([] : List String) ≠ [syntheticName "conductance"] := by
  refine ⟨rfl, ?_⟩
  intro h
  exact List.noConfusion h

/-- Claim C5 (code bug): on the single cluster {0,1} over the lone edge
(0,1) the second denominator of normalized_cut is zero; with
allow_nan=True the code adds float(allow_nan) = 1.0 (line 145) instead of
NaN, returning 1.0 — the mode variable computed at line 136 is never
used. With allow_nan=False it returns 0 as the spec says. -/
theorem c5_normalized_cut_adds_one :
    (normalized_cut k2Cover none true).getD 0 (some 0) = some 1 ∧
    (normalized_cut k2Cover none false).getD 0 (some 0) = some 0 := by
  have hb : (external_edges k2Cover).getD 0 [] = [] := by decide
  have hint : internalEdges k2Cover 0 = [⟨0, 0, 1⟩] := by decide
  have hall : k2Cover.graph.edges = [⟨0, 0, 1⟩] := rfl
  constructor
  · rw [normalized_cut_getD k2Cover none true 0 (by decide),
      conductance_getD k2Cover none false 0 (by decide), hb, hint, hall]
    norm_num [weightedSum_none]
  · rw [normalized_cut_getD k2Cover none false 0 (by decide),
      conductance_getD k2Cover none false 0 (by decide), hb, hint, hall]
    norm_num [weightedSum_none]

/-- Claim C3: for nonnegative weights, conductance returns
ext/(2*int + ext) per cluster, and when that denominator is zero it
returns 0 with allow_nan=False and NaN with allow_nan=True. -/
theorem c3_conductance_formula (C : Cover) (w : Option (Nat → ℚ)) (an : Bool)
    (i : Nat) (hi : i < C.clusters.length) (hw : WNonneg w) :
    (conductance C w an).getD i (some 0) =
      (if 2 * weightedSum (internalEdges C i) w
            + weightedSum ((external_edges C).getD i []) w = 0
       then policy an
       else some (weightedSum ((external_edges C).getD i []) w /
         (2 * weightedSum (internalEdges C i) w
            + weightedSum ((external_edges C).getD i []) w))) := by
  rw [conductance_getD C w an i hi]
  have hintn : 0 ≤ weightedSum (internalEdges C i) w := weightedSum_nonneg hw _
  have hextn : 0 ≤ weightedSum ((external_edges C).getD i []) w :=
    weightedSum_nonneg hw _
  by_cases hz : 2 * weightedSum (internalEdges C i) w
      + weightedSum ((external_edges C).getD i []) w = 0
  · rw [if_pos hz, if_neg]
    rw [hz]
    exact lt_irrefl 0
  · rw [if_neg hz, if_pos]
    apply lt_of_le_of_ne _ (Ne.symm hz)
    linarith

/-- Witness for C3 on the 4-cycle at cluster 0. -/
theorem c3_witness :
    (conductance fourCover none false).getD 0 (some 0) = some (1 / 2) := by
  have h := c3_conductance_formula fourCover none false 0 (by decide)
    (fun f hf => nomatch hf)
  rw [h]
  have hint0 : internalEdges fourCover 0 = [⟨0, 0, 1⟩] := by decide
  have hb0 : (external_edges fourCover).getD 0 [] =
      [(⟨1, 1, 2⟩ : Edge), ⟨3, 3, 0⟩] := by decide
  rw [hint0, hb0]
  norm_num [weightedSum_none]

/-- Claim C6 (counterexample): the single cluster {0,1} over the lone edge
(0,1) has no boundary edges, yet conductance with allow_nan=True returns
0 rather than NaN, because the internal edge keeps the denominator
positive. -/
theorem c6_counterexample :
    (external_edges k2Cover).getD 0 [] = [] ∧
    (conductance k2Cover none true).getD 0 (some 0) = some 0 ∧
    some (0 : ℚ) ≠ (none : Option ℚ) := by
  have hb : (external_edges k2Cover).getD 0 [] = [] := by decide
  have hint : internalEdges k2Cover 0 = [⟨0, 0, 1⟩] := by decide
  refine ⟨hb, ?_, by simp⟩
  rw [conductance_getD k2Cover none true 0 (by decide), hb, hint]
  norm_num [weightedSum_none]

/-- Claim C6 (amended): when cluster i has no boundary edges, conductance
is 0 with allow_nan=False; with allow_nan=True it is NaN only when the
cluster's weighted internal-edge sum is not positive, and 0 otherwise. -/
theorem c6_conductance_no_boundary (C : Cover) (w : Option (Nat → ℚ))
    (i : Nat) (hi : i < C.clusters.length)
    (hb : (external_edges C).getD i [] = []) :
    (conductance C w false).getD i (some 0) = some 0 ∧
    (conductance C w true).getD i (some 0) =
      (if 0 < weightedSum (internalEdges C i) w then some 0 else none) := by
  rw [conductance_getD C w false i hi, conductance_getD C w true i hi, hb,
    weightedSum_nil]
  constructor
  · by_cases hp : 0 < 2 * weightedSum (internalEdges C i) w + 0
    · rw [if_pos hp, zero_div]
    · rw [if_neg hp]
      rfl
  · by_cases hp : 0 < weightedSum (internalEdges C i) w
    · rw [if_pos (by linarith), if_pos hp, zero_div]
    · rw [if_neg (by intro hc; exact hp (by linarith)), if_neg hp]
      rfl

/-- Witness for the amended C6 on the single-cluster single-edge cover. -/
theorem c6_amended_witness :
    (conductance k2Cover none false).getD 0 (some 0) = some 0 ∧
    (conductance k2Cover none true).getD 0 (some 0) = some 0 := by
  have h := c6_conductance_no_boundary k2Cover none 0 (by decide) (by decide)
  refine ⟨h.1, ?_⟩
  rw [h.2]
  have hint : internalEdges k2Cover 0 = [⟨0, 0, 1⟩] := by decide
  rw [hint]
  norm_num [weightedSum_none]

/-- Claim C7 (counterexample): expansion on a cover containing an empty
cluster raises ZeroDivisionError — it divides by the cluster size with no
allow_nan policy — instead of yielding 0 or NaN. -/
theorem c7_counterexample :
    clusterSize emptyClusterCover 0 = 0 ∧
    expansion emptyClusterCover none = .error .zeroDivision := by
  exact ⟨rfl, rfl⟩

/-- Claim C7 (amended): cut_ratio recovers a zero cluster-size divisor via
the allow_nan policy (0 or NaN, never a failure), but expansion has no
such policy: it completes without failure exactly when every cluster is
nonempty, and an empty cluster makes it raise a division error. -/
theorem c7_zero_size_policy (C : Cover) (w : Option (Nat → ℚ)) :
    ((expansion C w).isOk = true ↔
      ∀ i < C.clusters.length, clusterSize C i ≠ 0) ∧
    (∀ an : Bool, ∀ i < C.clusters.length, clusterSize C i = 0 →
      (cut_ratio C an).getD i (some 0) = policy an) := by
  constructor
  · rw [expansion, expansionAux_isOk]
    constructor
    · intro h i hik
      exact h i (List.mem_range.mpr hik)
    · intro h i hi
      exact h i (List.mem_range.mp hi)
  · intro an i hi hz
    rw [cut_ratio_getD C an i hi, hz]
    norm_num

/-- Witness for the amended C7: expansion succeeds on the all-nonempty
4-cycle cover, and cut_ratio yields NaN on the empty cluster with
allow_nan=True. -/
theorem c7_amended_witness :
    (expansion fourCover none).isOk = true ∧
    (cut_ratio emptyClusterCover true).getD 0 (some 0) = none := by
  constructor
  · exact ((c7_zero_size_policy fourCover none).1).mpr (by decide)
  · have h := (c7_zero_size_policy emptyClusterCover none).2 true 0 (by decide)
      (by decide)
    rw [h]
    rfl

/-- Claim C8: over a cover that partitions the vertices (every vertex in
exactly one cluster), the total length of the boundary-edge lists equals
twice the number of crossing edges of the graph. -/
theorem c8_partition_double_count (C : Cover)
    (hwf : ∀ e ∈ C.graph.edges, e.src < C.graph.n ∧ e.dst < C.graph.n)
    (hpart : ∀ v < C.graph.n,
      (List.range C.clusters.length).countP (fun i => clusterHas C i v) = 1) :
    ((external_edges C).map List.length).sum =
      2 * C.graph.edges.countP (fun e => crossingB C e) := by
  have hchar : external_edges C =
      (List.range C.clusters.length).map
        (fun i => C.graph.edges.filter
          (fun e => crossingB C e && condAt (msetsOf C) i e)) := by
    apply List.ext_get?_iff.mpr
    intro n
    by_cases hn : n < C.clusters.length
    · rw [external_edges_get? C hn, List.get?_map, List.get?_range hn]
      rfl
    · have h1 : (external_edges C).get? n = none :=
        List.get?_eq_none.mpr (by rw [external_edges_length]; omega)
      have h2 : ((List.range C.clusters.length).map
          (fun i => C.graph.edges.filter
            (fun e => crossingB C e && condAt (msetsOf C) i e))).get? n = none :=
        List.get?_eq_none.mpr (by rw [List.length_map, List.length_range]; omega)
      rw [h1, h2]
  rw [hchar, List.map_map]
  have hlen : ((List.range C.clusters.length).map
      (List.length ∘ fun i => C.graph.edges.filter
        (fun e => crossingB C e && condAt (msetsOf C) i e))) =
      (List.range C.clusters.length).map
        (fun i => C.graph.edges.countP
          (fun e => crossingB C e && condAt (msetsOf C) i e)) := by
    apply List.map_congr_left
    intro i _
    simp [Function.comp, List.countP_eq_length_filter]
  rw [hlen, sum_countP_exchange]
  have hmap2 : C.graph.edges.map
      (fun e => (List.range C.clusters.length).countP
        (fun i => crossingB C e && condAt (msetsOf C) i e)) =
      C.graph.edges.map (fun e => if crossingB C e then 2 else 0) := by
    apply List.map_congr_left
    intro e he
    cases hc : crossingB C e with
    | true =>
        simp only [Bool.true_and, if_pos]
        exact crossing_edge_count C hwf hpart he hc
    | false =>
        simp only [Bool.false_and]
        simp
  rw [hmap2, sum_map_ite_two]

/-- Witness for C8 on the 4-cycle partition. -/
theorem c8_witness :
    ((external_edges fourCover).map List.length).sum =
      2 * fourCover.graph.edges.countP (fun e => crossingB fourCover e) :=
  c8_partition_double_count fourCover (by decide) (by decide)

/-- Claim C9: separability is int/ext exactly when the weighted boundary
sum ext is positive, the policy value (0 or NaN) when ext is zero, and
with allow_nan=True the NaN outcome characterizes ext = 0 (nonnegative
weights). -/
theorem c9_separability_characterization (C : Cover) (w : Option (Nat → ℚ))
    (an : Bool) (i : Nat) (hi : i < C.clusters.length) (hw : WNonneg w) :
    (weightedSum ((external_edges C).getD i []) w = 0 →
      (separability C w an).getD i (some 0) = policy an) ∧
    (weightedSum ((external_edges C).getD i []) w ≠ 0 →
      (separability C w an).getD i (some 0) =
        some (weightedSum (internalEdges C i) w /
          weightedSum ((external_edges C).getD i []) w)) ∧
    (an = true →
      ((separability C w an).getD i (some 0) = none ↔
        weightedSum ((external_edges C).getD i []) w = 0)) := by
  rw [separability_getD C w an i hi]
  have hextn : 0 ≤ weightedSum ((external_edges C).getD i []) w :=
    weightedSum_nonneg hw _
  refine ⟨?_, ?_, ?_⟩
  · intro hz
    rw [if_neg]
    rw [hz]
    exact lt_irrefl 0
  · intro hnz
    rw [if_pos (lt_of_le_of_ne hextn (Ne.symm hnz))]
  · intro han
    subst han
    by_cases hz : weightedSum ((external_edges C).getD i []) w = 0
    · rw [if_neg (by rw [hz]; exact lt_irrefl 0)]
      exact iff_of_true rfl hz
    · rw [if_pos (lt_of_le_of_ne hextn (Ne.symm hz))]
      exact iff_of_false (by simp) hz

/-- Witness for C9 on the 4-cycle at cluster 0. -/
theorem c9_witness :
    (separability fourCover none false).getD 0 (some 0) = some (1 / 2) := by
  have h := (c9_separability_characterization fourCover none false 0
    (by decide) (fun f hf => nomatch hf)).2.1
  have hb0 : (external_edges fourCover).getD 0 [] =
      [(⟨1, 1, 2⟩ : Edge), ⟨3, 3, 0⟩] := by decide
  have hint0 : internalEdges fourCover 0 = [⟨0, 0, 1⟩] := by decide
  rw [h (by rw [hb0]; norm_num [weightedSum_none]), hb0, hint0]
  norm_num [weightedSum_none]

/-- Claim C10: compute_metrics is deterministic and idempotent over the
cover's metrics cache: rerunning it with identical inputs, starting from
the state left by the first run, produces the identical state and
outcome bit for bit. -/
theorem c10_compute_metrics_idempotent {A : Type} (C : Cover)
    (w : Option (Nat → ℚ)) (aggr : List (Option ℚ) → A)
    (sgm : Nat → List (String × Option ℚ)) (s : CoverState A) :
    compute_metrics C w aggr sgm (compute_metrics C w aggr sgm s).1 =
      compute_metrics C w aggr sgm s := by
  unfold compute_metrics
  cases hb : baseReport C w aggr with
  | error e => simp
  | ok rep =>
      by_cases hk : C.clusters.length = 0 <;> simp [hk]

end Circulo
